import Mathlib

/-!
Verification of the ICD specific-code matcher (`icd_matcher.py`).

The module under study builds, at construction time, a mapping from
normalized ICD codes to the MongoDB documents that carry them, restricted
to a configured set of years, and answers lookups by normalizing the query
and collecting the document's `specific_codes` entries.

Shallow embedding conventions:
* a Mongo document (as projected by the scan: `_id`, `specific_codes`) is a
  `Document` with a string identifier and a list of `SCElem` values, where
  an `SCElem` is either a plain string or an object whose `code` field may
  be absent (`obj none` models a dict without a `code` key);
* the built index `code_map` is modelled as a function
  `String → Option Document`, so "exactly one entry per key" is structural;
* `print` output and the script's `__main__` block are modelled as a list
  of output events tagged with the channel they go to;
* Python's `str.upper`, the regex `\s`, `str.split("_", 1)` and `int(...)`
  are modelled for the ASCII range, which covers every code path the
  program exercises.
-/

namespace ICDMatcher

/-- Uppercasing of one character as Python's `str.upper` acts on ASCII:
letters `a`..`z` (code points 97..122) map 32 code points down, everything
else is unchanged. -/
def upperChar (c : Char) : Char :=
  if 97 ≤ c.toNat ∧ c.toNat ≤ 122 then Char.ofNat (c.toNat - 32) else c

/-- Whitespace as matched by the regex `\s` on ASCII text: space, tab,
newline, carriage return, vertical tab, form feed. -/
def isPySpace (c : Char) : Bool :=
  decide (c.toNat = 32 ∨ c.toNat = 9 ∨ c.toNat = 10 ∨ c.toNat = 13 ∨
          c.toNat = 11 ∨ c.toNat = 12)

/-- The cleaning pass of `normalize_code`:
`re.sub(r"\s+", "", code.upper())`, i.e. uppercase every character and
delete every whitespace character. -/
def cleanChars (l : List Char) : List Char :=
  (l.map upperChar).filter (fun c => !isPySpace c)

/-- Dot insertion of `normalize_code` on the cleaned character list:
if no dot is present and the length is at least 4, insert a dot after the
third character, else return the cleaned list unchanged. -/
def normalizeChars (l : List Char) : List Char :=
  let c := cleanChars l
  if '.' ∉ c ∧ 4 ≤ c.length then c.take 3 ++ '.' :: c.drop 3 else c

/-- `ICDSpecificCodes.normalize_code`. -/
def normalize_code (s : String) : String :=
  String.mk (normalizeChars s.data)

/-- One element of a document's `specific_codes` array: either a plain
string, or an object whose `code` field is optional (`sc.get("code")`
yields `None`, i.e. `none`, when the key is absent). -/
inductive SCElem where
  | str (s : String)
  | obj (code : Option String)
deriving DecidableEq, Repr

/-- A document as the collection scan returns it: the `_id` string and the
`specific_codes` array (the scan filter guarantees the field exists). -/
structure Document where
  id : String
  specific_codes : List SCElem
deriving DecidableEq, Repr

/-- Python's `s.split("_", 1)`: split at the first underscore only,
yielding two parts when an underscore occurs and the whole string
otherwise.  The source checks `len(parts) == 2`, which holds exactly when
an underscore is present. -/
def pySplit1Underscore (s : String) : List String :=
  if '_' ∈ s.data then
    [String.mk (s.data.takeWhile (fun c => c != '_')),
     String.mk ((s.data.dropWhile (fun c => c != '_')).tail)]
  else [s]

/-- Value of an ASCII digit run, most significant first. -/
def digitsVal (l : List Char) : Nat :=
  l.foldl (fun a d => a * 10 + (d.toNat - 48)) 0

/-- Python's `int(str)` on the strings this program feeds it: optional
surrounding whitespace, an optional sign, then one or more ASCII digits;
anything else raises `ValueError`, modelled as `none`. -/
def pyParseInt (s : String) : Option Int :=
  let t := ((s.data.dropWhile isPySpace).reverse.dropWhile isPySpace).reverse
  match t with
  | [] => none
  | c :: rest =>
    let ds := if c = '-' ∨ c = '+' then rest else c :: rest
    if ds.isEmpty || !ds.all Char.isDigit then none
    else some (if c = '-' then -(digitsVal ds : Int) else (digitsVal ds : Int))

/-- The per-document step of `_build_code_map`, as an optional index key:
split the identifier on the first underscore; skip unless that yields two
parts; parse the first part as an integer, skipping on failure; if the
year is in the configured set, the key is the normalization of the second
part. -/
def docKey (years : List Int) (d : Document) : Option String :=
  match pySplit1Underscore d.id with
  | [y, c] =>
    match pyParseInt y with
    | none => none
    | some n => if n ∈ years then some (normalize_code c) else none
  | _ => none

/-- One iteration of the `for doc in docs` loop of `_build_code_map`:
when the document yields a key, store `key → doc`, overwriting any prior
entry; otherwise leave the map unchanged. -/
def stepDoc (years : List Int) (m : String → Option Document) (d : Document) :
    String → Option Document :=
  match docKey years d with
  | none => m
  | some k => fun q => if q = k then some d else m q

/-- `ICDSpecificCodes._build_code_map`: fold the scanned documents, in
scan order, into the code map, starting from the empty map. -/
def buildCodeMap (years : List Int) (docs : List Document) :
    String → Option Document :=
  docs.foldl (stepDoc years) (fun _ => none)

/-- The value each `specific_codes` element contributes to the result set:
`sc.get("code")` for an object (possibly `none`), the element itself for a
plain string. -/
def elemCode : SCElem → Option String
  | .str v => some v
  | .obj c => c

/-- The result set built by the `for sc in doc.get("specific_codes", [])`
loop: the set of contributed values. -/
def codesOf (l : List SCElem) : Finset (Option String) :=
  (l.map elemCode).toFinset

/-- An ASCII apostrophe, as used by the f-string quoting in the error
message. -/
def quoteChar : Char := Char.ofNat 39

/-- Single-quote a string, as the f-string `'{x}'` does. -/
def sq (s : String) : String :=
  String.singleton quoteChar ++ s ++ String.singleton quoteChar

/-- The exact diagnostic printed by `get_specific_codes` on a miss. -/
def errMsg (raw norm : String) : String :=
  "[ERROR] ICD code " ++ sq raw ++ " (normalized: " ++ sq norm ++
    ") not found in the database."

/-- Outcome of one `get_specific_codes` call: the diagnostic it printed,
if any, and the returned set. -/
structure LookupResult where
  diag : Option String
  result : Finset (Option String)
deriving DecidableEq

/-- `ICDSpecificCodes.get_specific_codes`: normalize the input, look it up
in the code map; on a miss print the diagnostic and return the empty set;
on a hit collect the document's specific codes.  (`if not doc:` in the
source coincides with the `none` case here: every stored document is a
non-empty dict, since the scan projects `_id` and `specific_codes`.) -/
def get_specific_codes (m : String → Option Document) (raw : String) :
    LookupResult :=
  let code := normalize_code raw
  match m code with
  | none => { diag := some (errMsg raw code), result := ∅ }
  | some doc => { diag := none, result := codesOf doc.specific_codes }

/-- Output channel of a process write: standard output or standard
error. -/
inductive Chan where
  | out
  | err
deriving DecidableEq, Repr

/-- One observable write of the script: a printed text line, or the
printed `json.dumps(list(v), indent=2)` rendering of a result set. -/
inductive Event where
  | line (c : Chan) (s : String)
  | jsonArr (c : Chan) (v : Finset (Option String))
deriving DecidableEq

/-- Channel of an event. -/
def eventChan : Event → Chan
  | .line c _ => c
  | .jsonArr c _ => c

/-- The writes of the `__main__` block after the input line is read:
`get_specific_codes` prints its diagnostic (via `print`, hence to
standard output) when the lookup misses, and then the JSON array of the
returned set is always printed to standard output. -/
def runMain (m : String → Option Document) (input : String) : List Event :=
  let r := get_specific_codes m input
  (match r.diag with
   | some msg => [Event.line Chan.out msg]
   | none => []) ++ [Event.jsonArr Chan.out r.result]

/-! ### Example documents used in the claims' concrete scenarios -/

/-- The document of the C1 example scenario. -/
def docA03 : Document :=
  { id := "2024_A03", specific_codes := [SCElem.str "X1", SCElem.obj (some "X2")] }

/-- Documents of the C4 example scenario. -/
def docsEx : List Document :=
  [ { id := "2022_A01", specific_codes := [SCElem.str "S1"] },
    { id := "2023_A02", specific_codes := [SCElem.str "S2"] },
    { id := "2024_A03", specific_codes := [SCElem.str "S3"] } ]

/-- First duplicate-key document of the C5 example scenario. -/
def dupA : Document := { id := "2023_A02", specific_codes := [SCElem.str "Y1"] }

/-- Second duplicate-key document of the C5 example scenario. -/
def dupB : Document := { id := "2024_A02", specific_codes := [SCElem.str "Y2"] }

/-- Document with an object element lacking a `code` field, for the C8
witness. -/
def docNoCode : Document :=
  { id := "2024_B01", specific_codes := [SCElem.obj none] }

/-- Document whose identifier has an empty code part, for the C10
witness. -/
def docEmptyCode : Document :=
  { id := "2024_", specific_codes := [SCElem.str "Z"] }

/-! ### Character-level helper lemmas -/

/-- Kernel-level computation of `Char.toNat` after `Char.ofNat` for code
points below the surrogate range. -/
theorem toNat_ofNat_small (n : Nat) (h : n < 55296) : (Char.ofNat n).toNat = n := by
  have hv : n.isValidChar := Or.inl h
  rw [Char.ofNat, dif_pos hv]
  simp [Char.ofNatAux, Char.toNat, UInt32.toNat]

/-- Uppercasing a character twice is the same as doing it once. -/
theorem upperChar_idem (c : Char) : upperChar (upperChar c) = upperChar c := by
  unfold upperChar
  by_cases h : 97 ≤ c.toNat ∧ c.toNat ≤ 122
  · rw [if_pos h]
    have ht : (Char.ofNat (c.toNat - 32)).toNat = c.toNat - 32 :=
      toNat_ofNat_small _ (by omega)
    rw [if_neg]
    rw [ht]; omega
  · rw [if_neg h, if_neg h]

/-- Uppercasing neither creates nor destroys whitespace. -/
theorem isPySpace_upperChar (c : Char) : isPySpace (upperChar c) = isPySpace c := by
  unfold upperChar
  by_cases h : 97 ≤ c.toNat ∧ c.toNat ≤ 122
  · rw [if_pos h]
    unfold isPySpace
    rw [toNat_ofNat_small _ (by omega)]
    apply decide_eq_decide.mpr
    omega
  · rw [if_neg h]

/-- Every character surviving the cleaning pass is already uppercase and
non-whitespace. -/
theorem mem_cleanChars (l : List Char) (c : Char) (hc : c ∈ cleanChars l) :
    upperChar c = c ∧ isPySpace c = false := by
  have hc2 : c ∈ List.filter (fun c => !isPySpace c) (List.map upperChar l) := hc
  rcases List.mem_filter.mp hc2 with ⟨h2, h1⟩
  rcases List.mem_map.mp h2 with ⟨a, _, ha⟩
  exact ⟨by rw [← ha, upperChar_idem], by simpa using h1⟩

/-- Cleaning is the identity on a list of uppercase non-whitespace
characters. -/
theorem cleanChars_eq_self (l : List Char)
    (hfix : ∀ c ∈ l, upperChar c = c ∧ isPySpace c = false) :
    cleanChars l = l := by
  unfold cleanChars
  have hmap : List.map upperChar l = List.map id l :=
    List.map_congr_left (fun a ha => (hfix a ha).1)
  rw [hmap, List.map_id]
  exact List.filter_eq_self.mpr (fun a ha => by simp [(hfix a ha).2])

/-- Cleaning an already-cleaned character list changes nothing. -/
theorem cleanChars_idem (l : List Char) :
    cleanChars (cleanChars l) = cleanChars l :=
  cleanChars_eq_self _ (fun c hc => mem_cleanChars l c hc)

/-- The output of the whole normalization pass is fixed by the cleaning
pass. -/
theorem cleanChars_normalizeChars (l : List Char) :
    cleanChars (normalizeChars l) = normalizeChars l := by
  apply cleanChars_eq_self
  intro c hc
  simp only [normalizeChars] at hc
  by_cases h : '.' ∉ cleanChars l ∧ 4 ≤ (cleanChars l).length
  · rw [if_pos h] at hc
    rcases List.mem_append.mp hc with h1 | h1
    · exact mem_cleanChars l c (List.take_subset 3 _ h1)
    · rcases List.mem_cons.mp h1 with h2 | h2
      · subst h2; exact ⟨by decide, by decide⟩
      · exact mem_cleanChars l c (List.drop_subset 3 _ h2)
  · rw [if_neg h] at hc
    exact mem_cleanChars l c hc

/-- Unfolding equation for `normalizeChars`. -/
theorem normalizeChars_eq (m : List Char) :
    normalizeChars m =
      if '.' ∉ cleanChars m ∧ 4 ≤ (cleanChars m).length then
        (cleanChars m).take 3 ++ '.' :: (cleanChars m).drop 3
      else cleanChars m := rfl

/-- A list fixed by cleaning and containing a dot normalizes to itself. -/
theorem normalizeChars_of_fixed_dot (m : List Char) (hc : cleanChars m = m)
    (hd : '.' ∈ m) : normalizeChars m = m := by
  rw [normalizeChars_eq m, hc, if_neg (fun hh => hh.1 hd)]

/-- Normalization of character lists is idempotent. -/
theorem normalizeChars_idem (l : List Char) :
    normalizeChars (normalizeChars l) = normalizeChars l := by
  by_cases h : '.' ∉ cleanChars l ∧ 4 ≤ (cleanChars l).length
  · apply normalizeChars_of_fixed_dot _ (cleanChars_normalizeChars l)
    have hval : normalizeChars l =
        (cleanChars l).take 3 ++ '.' :: (cleanChars l).drop 3 := by
      rw [normalizeChars_eq l, if_pos h]
    rw [hval]
    exact List.mem_append.mpr (Or.inr (List.mem_cons_self _ _))
  · have hval : normalizeChars l = cleanChars l := by
      rw [normalizeChars_eq l, if_neg h]
    rw [normalizeChars_eq (normalizeChars l), cleanChars_normalizeChars l, hval,
        if_neg h]

/-- Normalization of strings is idempotent. -/
theorem normalize_code_idem (s : String) :
    normalize_code (normalize_code s) = normalize_code s := by
  show String.mk (normalizeChars (normalizeChars s.data)) = String.mk (normalizeChars s.data)
  exact congrArg String.mk (normalizeChars_idem s.data)

/-- A string consisting solely of whitespace normalizes to the empty
string. -/
theorem normalize_code_of_space (s : String)
    (h : ∀ c ∈ s.data, isPySpace c = true) : normalize_code s = "" := by
  have hclean : cleanChars s.data = [] := by
    unfold cleanChars
    apply List.filter_eq_nil_iff.mpr
    intro a ha
    rcases List.mem_map.mp ha with ⟨b, hb, hba⟩
    simp [← hba, isPySpace_upperChar, h b hb]
  show String.mk (normalizeChars s.data) = ""
  rw [normalizeChars_eq, hclean]
  rw [if_neg (by simp)]

/-- Characterization of the code-map fold: the value at a key is the
last-scanned document yielding that key, and the initial map's value when
there is none. -/
theorem foldl_stepDoc (years : List Int) (docs : List Document)
    (m : String → Option Document) (k : String) :
    (docs.foldl (stepDoc years) m) k =
      match docs.reverse.find? (fun d => decide (docKey years d = some k)) with
      | some d => some d
      | none => m k := by
  induction docs generalizing m with
  | nil => simp
  | cons d t ih =>
    rw [List.foldl_cons, ih (stepDoc years m d), List.reverse_cons,
        List.find?_append]
    cases hf : t.reverse.find? (fun x => decide (docKey years x = some k)) with
    | some d2 => simp
    | none =>
      simp only [Option.none_or]
      cases hk : docKey years d with
      | none => simp [stepDoc, hk, List.find?]
      | some k2 =>
        by_cases he : k = k2
        · subst he; simp [stepDoc, hk, List.find?]
        · have he2 : ¬k2 = k := fun hh => he hh.symm
          simp [stepDoc, hk, List.find?, he, he2]

/-- The built code map is the last-scanned keyed document at every key. -/
theorem buildCodeMap_eq_find (years : List Int) (docs : List Document)
    (k : String) :
    buildCodeMap years docs k =
      docs.reverse.find? (fun d => decide (docKey years d = some k)) := by
  rw [buildCodeMap, foldl_stepDoc]
  cases docs.reverse.find? (fun d => decide (docKey years d = some k)) <;> rfl

/-- The built code map has an entry at a key exactly when some scanned
document yields that key. -/
theorem buildCodeMap_ne_none_iff (years : List Int) (docs : List Document)
    (k : String) :
    buildCodeMap years docs k ≠ none ↔ ∃ d ∈ docs, docKey years d = some k := by
  rw [buildCodeMap_eq_find]
  constructor
  · intro h
    cases hf : docs.reverse.find? (fun d => decide (docKey years d = some k)) with
    | none => exact absurd hf h
    | some d0 =>
      refine ⟨d0, List.mem_reverse.mp (List.mem_of_find?_eq_some hf), ?_⟩
      have hp := List.find?_some hf
      exact of_decide_eq_true hp
  · rintro ⟨d, hd, hk⟩ hnone
    rw [List.find?_eq_none] at hnone
    exact hnone d (List.mem_reverse.mpr hd) (by simp [hk])

/-- Uppercasing and whitespace removal commute: cleaning can equivalently
drop whitespace first and uppercase afterwards. -/
theorem cleanChars_comm (l : List Char) :
    cleanChars l = (l.filter (fun c => !isPySpace c)).map upperChar := by
  unfold cleanChars
  rw [List.filter_map]
  congr 1
  apply List.filter_congr
  intro a _
  simp [Function.comp, isPySpace_upperChar]

/-- The miss diagnostic contains the raw input and the normalized form,
each surrounded by fixed text. -/
theorem errMsg_decomp (r n : String) :
    ∃ pre mid post, errMsg r n = pre ++ r ++ mid ++ n ++ post := by
  refine ⟨"[ERROR] ICD code " ++ String.singleton quoteChar,
          String.singleton quoteChar ++ " (normalized: " ++ String.singleton quoteChar,
          String.singleton quoteChar ++ ") not found in the database.", ?_⟩
  simp only [errMsg, sq, String.append_assoc]

/-- Splitting `y ++ "_"` on the first underscore, when `y` itself has
none, yields `y` and the empty remainder. -/
theorem pySplit1_append_underscore (y : String) (hy : '_' ∉ y.data) :
    pySplit1Underscore (y ++ "_") = [y, ""] := by
  have hdata : (y ++ "_").data = y.data ++ ['_'] := by
    rw [String.data_append]
  have hall : ∀ x ∈ y.data, (x != '_') = true := by
    intro x hx
    simp only [bne_iff_ne, ne_eq]
    exact fun heq => hy (heq ▸ hx)
  unfold pySplit1Underscore
  rw [hdata, if_pos (List.mem_append.mpr (Or.inr (List.mem_singleton.mpr rfl)))]
  have htw : (y.data ++ ['_']).takeWhile (fun c => c != '_') = y.data := by
    rw [List.takeWhile_append, List.takeWhile_eq_self_iff.mpr hall]
    simp
  have hdw : (y.data ++ ['_']).dropWhile (fun c => c != '_') = ['_'] := by
    rw [List.dropWhile_append, List.dropWhile_eq_nil_iff.mpr hall]
    simp [List.dropWhile]
  rw [htw, hdw]
  rfl

/-! ### Claim theorems -/

/-- Claim C2: `normalize_code` is a pure function of the raw string that
uppercases it and removes all whitespace, and inserts a dot after the 3rd
character exactly when the cleaned string contains no dot and has length
at least 4; in particular the four quoted examples hold.  (Purity is
structural: the embedding is a function of the string alone, matching the
source method, which reads no state.) -/
theorem c2_normalize_shape :
    normalize_code "E0800" = "E08.00" ∧
    normalize_code "E08" = "E08" ∧
    normalize_code "E08.00" = "E08.00" ∧
    normalize_code "e08 00" = normalize_code "E0800" ∧
    ∀ s : String,
      normalize_code s =
        (let cl := (s.data.filter (fun c => !isPySpace c)).map upperChar
         if '.' ∉ cl ∧ 4 ≤ cl.length then
           String.mk (cl.take 3 ++ '.' :: cl.drop 3)
         else String.mk cl) := by
  refine ⟨by decide, by decide, by decide, by decide, ?_⟩
  intro s
  show String.mk (normalizeChars s.data) = _
  rw [normalizeChars_eq, cleanChars_comm, apply_ite String.mk]

/-- Claim C7: normalization is idempotent. -/
theorem c7_normalize_idempotent :
    ∀ s : String, normalize_code (normalize_code s) = normalize_code s :=
  normalize_code_idem

/-- Claim C9: the returned set of `get_specific_codes` depends on the
input only through normalization: inputs with equal normal forms give
equal result sets, and querying with the normalized form itself gives the
same result set. -/
theorem c9_lookup_normalization_invariant :
    (∀ (m : String → Option Document) (x y : String),
        normalize_code x = normalize_code y →
        (get_specific_codes m x).result = (get_specific_codes m y).result) ∧
    (∀ (m : String → Option Document) (x : String),
        (get_specific_codes m x).result =
          (get_specific_codes m (normalize_code x)).result) := by
  have key : ∀ (m : String → Option Document) (x y : String),
      normalize_code x = normalize_code y →
      (get_specific_codes m x).result = (get_specific_codes m y).result := by
    intro m x y h
    simp only [get_specific_codes, h]
    cases m (normalize_code y) <;> rfl
  exact ⟨key, fun m x => key m x (normalize_code x) (normalize_code_idem x).symm⟩

/-- Witness for C9 at a concrete index and concrete inputs with equal
normal forms. -/
theorem c9_witness :
    (get_specific_codes (buildCodeMap [2023, 2024] docsEx) "e08 00").result =
      (get_specific_codes (buildCodeMap [2023, 2024] docsEx) "E0800").result :=
  c9_lookup_normalization_invariant.1 (buildCodeMap [2023, 2024] docsEx)
    "e08 00" "E0800" (by decide)

/-- Claim C5: the built index is single-valued by construction (it is a
function), and the entry stored at a key is the last-scanned document
yielding that key — each store overwrites any prior entry; in the
concrete duplicate scenario the later document wins. -/
theorem c5_last_write_wins :
    (∀ (years : List Int) (docs : List Document) (k : String),
        buildCodeMap years docs k =
          docs.reverse.find? (fun d => decide (docKey years d = some k))) ∧
    buildCodeMap [2023, 2024] [dupA, dupB] "A02" = some dupB :=
  ⟨buildCodeMap_eq_find, by decide⟩

/-- Claim C1: for a code present in the index, the returned set is exactly
the values contributed by the owning document's `specific_codes` elements
(the `code` field for object elements, the element itself for strings);
the quoted example evaluates to the two-element set. -/
theorem c1_lookup_present_set :
    (∀ (m : String → Option Document) (raw : String) (d : Document),
        m (normalize_code raw) = some d →
        ∀ x, x ∈ (get_specific_codes m raw).result ↔
          ∃ e ∈ d.specific_codes, elemCode e = x) ∧
    (get_specific_codes (buildCodeMap [2024] [docA03]) "A03").result =
      {some "X1", some "X2"} := by
  constructor
  · intro m raw d h x
    simp only [get_specific_codes, h]
    simp [codesOf]
  · decide

/-- Witness for C1: the general part applied at the example document. -/
theorem c1_witness :
    some "X1" ∈ (get_specific_codes (buildCodeMap [2024] [docA03]) "A03").result ↔
      ∃ e ∈ docA03.specific_codes, elemCode e = some "X1" :=
  c1_lookup_present_set.1 (buildCodeMap [2024] [docA03]) "A03" docA03
    (by decide) (some "X1")

/-- Claim C3: for a raw code whose normalized form is absent from the
index, `get_specific_codes` returns the empty set and emits a diagnostic
containing both the raw input and the normalized form; the embedding is a
total function, so no exception is raised. -/
theorem c3_miss_returns_empty :
    ∀ (m : String → Option Document) (raw : String),
      m (normalize_code raw) = none →
      (get_specific_codes m raw).result = ∅ ∧
      ∃ pre mid post, (get_specific_codes m raw).diag =
        some (pre ++ raw ++ mid ++ normalize_code raw ++ post) := by
  intro m raw h
  have hres : get_specific_codes m raw =
      { diag := some (errMsg raw (normalize_code raw)), result := ∅ } := by
    simp only [get_specific_codes, h]
  rw [hres]
  refine ⟨rfl, ?_⟩
  rcases errMsg_decomp raw (normalize_code raw) with ⟨pre, mid, post, he⟩
  exact ⟨pre, mid, post, by rw [he]⟩

/-- Witness for C3 at an empty index and the input `X9`. -/
theorem c3_witness :
    (get_specific_codes (buildCodeMap [2023, 2024] []) "X9").result = ∅ ∧
    ∃ pre mid post,
      (get_specific_codes (buildCodeMap [2023, 2024] []) "X9").diag =
        some (pre ++ "X9" ++ mid ++ normalize_code "X9" ++ post) :=
  c3_miss_returns_empty (buildCodeMap [2023, 2024] []) "X9" (by decide)

/-- Claim C4: the built index has an entry exactly for each scanned
document whose identifier splits on the first underscore into two parts
with an integer first part lying in the configured years, keyed by the
normalization of the second part; malformed identifiers and non-numeric
year segments contribute nothing (for any year set); and in the quoted
three-document scenario the index holds entries exactly for `A02` and
`A03`. -/
theorem c4_index_membership :
    (∀ (years : List Int) (docs : List Document) (k : String),
        buildCodeMap years docs k ≠ none ↔ ∃ d ∈ docs, docKey years d = some k) ∧
    (∀ years : List Int,
        docKey years { id := "2024A01", specific_codes := [] } = none) ∧
    (∀ years : List Int,
        docKey years { id := "year_A01", specific_codes := [] } = none) ∧
    buildCodeMap [2023, 2024] docsEx "A02" ≠ none ∧
    buildCodeMap [2023, 2024] docsEx "A03" ≠ none ∧
    buildCodeMap [2023, 2024] docsEx "A01" = none ∧
    (∀ k, buildCodeMap [2023, 2024] docsEx k ≠ none ↔ k = "A02" ∨ k = "A03") := by
  have h1 : docKey [2023, 2024]
      { id := "2022_A01", specific_codes := [SCElem.str "S1"] } = none := by decide
  have h2 : docKey [2023, 2024]
      { id := "2023_A02", specific_codes := [SCElem.str "S2"] } = some "A02" := by decide
  have h3 : docKey [2023, 2024]
      { id := "2024_A03", specific_codes := [SCElem.str "S3"] } = some "A03" := by decide
  refine ⟨buildCodeMap_ne_none_iff, fun years => rfl, fun years => rfl,
    by decide, by decide, by decide, ?_⟩
  intro k
  rw [buildCodeMap_ne_none_iff]
  constructor
  · rintro ⟨d, hd, hk⟩
    simp only [docsEx, List.mem_cons, List.not_mem_nil, or_false] at hd
    rcases hd with rfl | rfl | rfl
    · rw [h1] at hk; cases hk
    · rw [h2] at hk; exact Or.inl (Option.some.inj hk).symm
    · rw [h3] at hk; exact Or.inr (Option.some.inj hk).symm
  · rintro (rfl | rfl)
    · exact ⟨_, by simp [docsEx], h2⟩
    · exact ⟨_, by simp [docsEx], h3⟩

/-- Witness for C4: the general membership equivalence applied in the
concrete scenario at key `A02`. -/
theorem c4_witness :
    buildCodeMap [2023, 2024] docsEx "A02" ≠ none ↔
      ∃ d ∈ docsEx, docKey [2023, 2024] d = some "A02" :=
  c4_index_membership.1 [2023, 2024] docsEx "A02"

/-- Claim C8: when the document found for a present code has an
object-shaped element lacking a `code` field, the returned set contains
the `None` value. -/
theorem c8_missing_code_yields_none :
    ∀ (m : String → Option Document) (raw : String) (d : Document),
      m (normalize_code raw) = some d →
      SCElem.obj none ∈ d.specific_codes →
      none ∈ (get_specific_codes m raw).result := by
  intro m raw d h hmem
  simp only [get_specific_codes, h]
  simp only [codesOf, List.mem_toFinset, List.mem_map]
  exact ⟨SCElem.obj none, hmem, rfl⟩

/-- Witness for C8 at a concrete document with a codeless object
element. -/
theorem c8_witness :
    none ∈ (get_specific_codes (buildCodeMap [2024] [docNoCode]) "B01").result :=
  c8_missing_code_yields_none (buildCodeMap [2024] [docNoCode]) "B01" docNoCode
    (by decide) (by decide)

/-- Claim C6 counterexample: on a miss the script writes the diagnostic
line to standard output (not an error stream) and still writes the JSON
array of the empty set to standard output — both, on the same run, with
nothing on the error stream.  This refutes the claim that a miss produces
a diagnostic on an error stream and that the two writes are exclusive. -/
theorem c6_counterexample :
    Event.line Chan.out (errMsg "X" (normalize_code "X")) ∈
        runMain (buildCodeMap [2023, 2024] []) "X" ∧
    Event.jsonArr Chan.out ∅ ∈ runMain (buildCodeMap [2023, 2024] []) "X" ∧
    ∀ e ∈ runMain (buildCodeMap [2023, 2024] []) "X", eventChan e = Chan.out := by
  decide

/-- Claim C6 (amended): when run directly, after reading one line from
standard input, every write goes to standard output; on a miss the
process writes the diagnostic line followed by the JSON array of the
empty set, and on a hit it writes only the JSON array of the matched
codes. -/
theorem c6_amended_main_output :
    ∀ (m : String → Option Document) (input : String),
      (∀ e ∈ runMain m input, eventChan e = Chan.out) ∧
      (m (normalize_code input) = none →
        runMain m input =
          [Event.line Chan.out (errMsg input (normalize_code input)),
           Event.jsonArr Chan.out ∅]) ∧
      (∀ d, m (normalize_code input) = some d →
        runMain m input = [Event.jsonArr Chan.out (codesOf d.specific_codes)]) := by
  intro m input
  cases h : m (normalize_code input) with
  | none =>
    have hr : runMain m input =
        [Event.line Chan.out (errMsg input (normalize_code input)),
         Event.jsonArr Chan.out ∅] := by
      simp [runMain, get_specific_codes, h]
    refine ⟨?_, fun _ => hr, ?_⟩
    · intro e he
      rw [hr] at he
      simp only [List.mem_cons, List.not_mem_nil, or_false] at he
      rcases he with rfl | rfl <;> rfl
    · intro d hd
      cases hd
  | some d0 =>
    have hr : runMain m input =
        [Event.jsonArr Chan.out (codesOf d0.specific_codes)] := by
      simp [runMain, get_specific_codes, h]
    refine ⟨?_, ?_, ?_⟩
    · intro e he
      rw [hr] at he
      simp only [List.mem_cons, List.not_mem_nil, or_false] at he
      subst he
      rfl
    · intro hnone
      cases hnone
    · intro d hd
      injection hd with hh
      subst hh
      exact hr

/-- Witness for the amended C6: the hit branch at the example document. -/
theorem c6_witness :
    runMain (buildCodeMap [2024] [docA03]) "A03" =
      [Event.jsonArr Chan.out (codesOf docA03.specific_codes)] :=
  (c6_amended_main_output (buildCodeMap [2024] [docA03]) "A03").2.2 docA03
    (by decide)

/-- Claim C10: a scanned document whose identifier is a year in the
configured set followed by a bare underscore is indexed under the empty
string, so a lookup whose input is empty or whitespace-only does not take
the not-found path: it prints no diagnostic and returns the specific
codes of the document stored under the empty key. -/
theorem c10_empty_code_part :
    ∀ (years : List Int) (docs : List Document) (d : Document) (y : String)
      (n : Int) (raw : String),
      d ∈ docs → d.id = y ++ "_" → '_' ∉ y.data → pyParseInt y = some n →
      n ∈ years → (∀ c ∈ raw.data, isPySpace c = true) →
      docKey years d = some "" ∧
      buildCodeMap years docs "" ≠ none ∧
      (get_specific_codes (buildCodeMap years docs) raw).diag = none ∧
      ∃ d2, buildCodeMap years docs "" = some d2 ∧
        (get_specific_codes (buildCodeMap years docs) raw).result =
          codesOf d2.specific_codes := by
  intro years docs d y n raw hmem hid hy hparse hyear hspace
  have hkey : docKey years d = some "" := by
    simp only [docKey, hid, pySplit1_append_underscore y hy, hparse,
      if_pos hyear]
    rfl
  have hne : buildCodeMap years docs "" ≠ none :=
    (buildCodeMap_ne_none_iff years docs "").mpr ⟨d, hmem, hkey⟩
  have hnorm : normalize_code raw = "" := normalize_code_of_space raw hspace
  cases hopt : buildCodeMap years docs "" with
  | none => exact absurd hopt hne
  | some d2 =>
    have hres : get_specific_codes (buildCodeMap years docs) raw =
        { diag := none, result := codesOf d2.specific_codes } := by
      simp only [get_specific_codes, hnorm, hopt]
    exact ⟨hkey, fun hh => Option.noConfusion hh, by rw [hres], ⟨d2, rfl, by rw [hres]⟩⟩

/-- Witness for C10 at a concrete one-document scan and a whitespace-only
input. -/
theorem c10_witness :
    docKey [2024] docEmptyCode = some "" ∧
    buildCodeMap [2024] [docEmptyCode] "" ≠ none ∧
    (get_specific_codes (buildCodeMap [2024] [docEmptyCode]) "  ").diag = none ∧
    ∃ d2, buildCodeMap [2024] [docEmptyCode] "" = some d2 ∧
      (get_specific_codes (buildCodeMap [2024] [docEmptyCode]) "  ").result =
        codesOf d2.specific_codes :=
  c10_empty_code_part [2024] [docEmptyCode] docEmptyCode "2024" 2024 "  "
    (by decide) (by decide) (by decide) (by decide) (by decide) (by decide)

end ICDMatcher
